import Mathlib

/-!
Shallow embedding of the `sis-install` package installer (sis-install.py)
and proofs about its resolver/scheduler, version comparison, action
parsing, archive unpacking and build pipeline.

Python machine-level conventions used throughout the embedding:
* Python `None` becomes `Option.none`; fallible code returns `Except String`.
* Python dictionaries become association lists (first match wins on lookup,
  mirroring a dict where insertion happens only on a missing key; the seed
  list is reversed before building the map so that, as in a dict
  comprehension, the last binding for a key wins).
* Python sets are lists without duplicates: an element is appended only when
  absent, mirroring `set.add`; `set.pop` is modelled as taking the head.
* Unbounded `while` loops take an explicit fuel argument; exhausted fuel is
  the distinct outcome `.error "fuel"`, never confused with a real failure.
-/

namespace SIS

/-- A version of a package, as in class `Version`: the owning package
(`pack` back-reference, here the package's numeric id) and the version
string.  A version is a source version exactly when its string is
`"source"` (`SRCE_VERS`). -/
structure Vers where
  pack : Nat
  version : String
deriving DecidableEq, Repr

/-- A package, as in class `Package`: hard requirements (`reqs`), soft
requirements (`uses`), both as package ids, the installed flag, the tool
flag and the attached versions. -/
structure Pack where
  reqs : List Nat := []
  uses : List Nat := []
  installed : Bool := false
  tool : Bool := false
  versions : List Vers := []

/-- The merged in-memory catalog (the `DB` map), keyed by package id. -/
abbrev Catalog := Nat → Pack

/-- Constant `SRCE_VERS`: the fixed version string of a source version. -/
def SRCE_VERS : String := "source"

/-! ## Version comparison: `is_younger` (sis-install.py lines 87-89) -/

/-- Worker for Python `str.split()`: walk the characters, accumulating the
current field (reversed); whitespace ends a field, empty fields are
dropped. -/
def splitWSAux : List Char → List Char → List (List Char)
  | [], [] => []
  | [], acc => [acc.reverse]
  | c :: cs, acc =>
    if c.isWhitespace then
      if acc = [] then splitWSAux cs []
      else acc.reverse :: splitWSAux cs []
    else splitWSAux cs (c :: acc)

/-- Python `str.split()` with no argument: split on runs of whitespace and
discard empty fields. -/
def pySplit (s : String) : List String :=
  (splitWSAux s.toList []).map List.asString

/-- Python `<` on two strings: lexicographic comparison of the code
points. -/
def pyCharsLT : List Char → List Char → Bool
  | _, [] => false
  | [], _ :: _ => true
  | c :: cs, d :: ds =>
    if c < d then true
    else if c = d then pyCharsLT cs ds
    else false

/-- Python `<` on two strings, as strings. -/
def pyStrLT (a b : String) : Bool :=
  pyCharsLT a.toList b.toList

/-- Python `<` on lists of strings: lexicographic comparison, where a proper
prefix is smaller and elements compare as strings (code-point order). -/
def pyListLT : List String → List String → Bool
  | _, [] => false
  | [], _ :: _ => true
  | x :: xs, y :: ys =>
    if pyStrLT x y then true
    else if x = y then pyListLT xs ys
    else false

/-- Function `is_younger(v1, v2)` = `v1.split() > v2.split()`. Python `a > b` on
lists is `b < a`. -/
def is_younger (v1 v2 : String) : Bool :=
  pyListLT (pySplit v2) (pySplit v1)

/-! ## `Package.latest` (lines 1148-1157) and `Package.source` (1141-1146)

`latest` scans `self.versions`; for each non-source version `v` it evaluates
`l == None or is_younger(v, l)`.  `is_younger` is called with the two
`Version` *objects* (not their version strings), and `Version` has no
`split` method, so the second non-source version reached always raises
`AttributeError`.  We model that crash as `.error attrError`. -/

/-- The exception text produced when `is_younger` receives `Version`
objects: `v1.split()` fails because `Version` has no attribute `split`. -/
def attrError : String := "AttributeError: 'Version' object has no attribute 'split'"

/-- Method `Package.source()`: the first version whose string is `SRCE_VERS`,
or `None`. -/
def source (cat : Catalog) (p : Nat) : Option Vers :=
  (cat p).versions.find? (fun v => v.version = SRCE_VERS)

/-- The scanning loop of `Package.latest()`.  `l` is the best non-source
version so far; reaching a second non-source version calls
`is_younger(v, l)` on two `Version` objects, which raises. -/
def latestLoop : List Vers → Option Vers → Except String (Option Vers)
  | [], l => .ok l
  | v :: vs, l =>
    if v.version ≠ SRCE_VERS then
      match l with
      | none => latestLoop vs (some v)
      | some _ => .error attrError
    else
      latestLoop vs l

/-- Method `Package.latest()`: scan the versions; if no non-source version was
found, fall back to `source()`. -/
def latest (cat : Catalog) (p : Nat) : Except String (Option Vers) :=
  match latestLoop (cat p).versions none with
  | .error e => .error e
  | .ok none => .ok (source cat p)
  | .ok (some l) => .ok (some l)

/-! ## `close_packs` (lines 1468-1489)

```
vmap = { v.pack: v for v in vs }
todo = set(vs)
to_install = { }
while todo:
    v = todo.pop()
    if not v.pack.installed or (mon.force and v in vs):
        rvs = set()
        for req in v.pack.reqs:
            try:
                rv = vmap[req]
            except KeyError:
                rv = req.latest()
                vmap[req] = rv
            if rv != None:
                rvs.add(rv)
                if rv not in to_install:
                    todo.add(rv)
        to_install[v] = rvs
return to_install
```
-/

/-- The `vmap` dictionary: package id to resolved version (which may be the
Python value `None`, stored as `Option.none`, since `vmap[req] = rv` runs
before the `rv != None` test). -/
abbrev Vmap := List (Nat × Option Vers)

/-- The `to_install` dictionary: version to the set (list without
duplicates) of versions it directly depends on. -/
abbrev TI := List (Vers × List Vers)

/-- Dictionary lookup: first matching key. -/
def alookup : Vmap → Nat → Option (Option Vers)
  | [], _ => none
  | e :: m, p => if e.1 = p then some e.2 else alookup m p

/-- The key list of `to_install`. -/
def tiKeys (ti : TI) : List Vers := ti.map Prod.fst

/-- Assignment `to_install[v] = rvs`: overwrite the entry if the key is present,
otherwise append it. -/
def tiSet (ti : TI) (v : Vers) (rvs : List Vers) : TI :=
  if v ∈ tiKeys ti then ti.map (fun e => if e.1 = v then (v, rvs) else e)
  else ti ++ [(v, rvs)]

/-- The `try: rv = vmap[req] / except KeyError: rv = req.latest();
vmap[req] = rv` block: look the requirement up, falling back to
`req.latest()` (which may raise) and recording the result — even a `None`
result — in `vmap`. -/
def resolveReq (cat : Catalog) (vmap : Vmap) (req : Nat) :
    Except String (Option Vers × Vmap) :=
  match alookup vmap req with
  | some rv => .ok (rv, vmap)
  | none =>
    match latest cat req with
    | .error e => .error e
    | .ok rv => .ok (rv, vmap ++ [(req, rv)])

/-- Statement `rvs.add(rv)` followed by `if rv not in to_install: todo.add(rv)`
(both are Python sets, so an element is appended only when absent). -/
def addRV (ti : TI) (rv : Vers) (rvs todo : List Vers) :
    List Vers × List Vers :=
  (if rv ∈ rvs then rvs else rvs ++ [rv],
   if rv ∈ tiKeys ti then todo
   else if rv ∈ todo then todo else todo ++ [rv])

/-- The `for req in v.pack.reqs` body: resolve each requirement through
`vmap` (falling back to `req.latest()`, which may raise), collect non-None
resolutions in `rvs` and push versions not yet in `to_install` onto `todo`.
`ti` (`to_install`) is read-only inside this loop. -/
def reqsStep (cat : Catalog) (ti : TI) :
    List Nat → Vmap → List Vers → List Vers →
    Except String (Vmap × List Vers × List Vers)
  | [], vmap, rvs, todo => .ok (vmap, rvs, todo)
  | req :: rest, vmap, rvs, todo =>
    match resolveReq cat vmap req with
    | .error e => .error e
    | .ok (none, vmap1) => reqsStep cat ti rest vmap1 rvs todo
    | .ok (some rv, vmap1) =>
      reqsStep cat ti rest vmap1 (addRV ti rv rvs todo).1 (addRV ti rv rvs todo).2

/-- The `while todo` loop of `close_packs`.  `fuel` bounds the number of
iterations; exhaustion is reported as `.error "fuel"`. -/
def closeLoop (cat : Catalog) (force : Bool) (vs : List Vers) :
    Nat → Vmap → List Vers → TI → Except String TI
  | 0, _, todo, ti => if todo.isEmpty then .ok ti else .error "fuel"
  | fuel + 1, vmap, todo, ti =>
    match todo with
    | [] => .ok ti
    | v :: rest =>
      if (cat v.pack).installed = false ∨ (force = true ∧ v ∈ vs) then
        match reqsStep cat ti (cat v.pack).reqs vmap [] rest with
        | .error e => .error e
        | .ok (vmap1, rvs, todo1) =>
          closeLoop cat force vs fuel vmap1 todo1 (tiSet ti v rvs)
      else
        closeLoop cat force vs fuel vmap rest ti

/-- Function `close_packs(vs, mon)`: initial `vmap` is the dict comprehension
`{v.pack: v for v in vs}` (last binding for a pack wins, hence the
`reverse`), initial `todo` is `set(vs)` (duplicates removed), and
`to_install` starts empty. -/
def close_packs (cat : Catalog) (force : Bool) (vs : List Vers) (fuel : Nat) :
    Except String TI :=
  closeLoop cat force vs fuel (vs.reverse.map (fun v => (v.pack, some v)))
    vs.dedup []

/-! ## `Package.get_rank` (lines 1131-1139)

```
if self.rank == None:
    if self.reqs or self.uses:
        self.rank = max([p.get_rank() for p in self.reqs + self.uses]) + 1
    else:
        self.rank = 0
return self.rank
```

The memo table of `rank` attributes is passed explicitly; a call returns
the rank together with the updated table.  Recursion through a dependency
cycle never terminates in Python; here it exhausts the fuel and the whole
call returns `none`. -/

/-- The store of memoized `rank` attributes across all packages. -/
abbrev Memo := Nat → Option Nat

/-- Setting the `rank` attribute of one package. -/
def mupd (m : Memo) (p r : Nat) : Memo :=
  fun q => if q = p then some r else m q

/-- Concatenation `self.reqs + self.uses`. -/
def pdeps (cat : Catalog) (p : Nat) : List Nat :=
  (cat p).reqs ++ (cat p).uses

/-- Python `max` of a non-empty list of naturals. -/
def pymax (l : List Nat) : Nat := l.foldl Nat.max 0

/-- One step of the list comprehension
`[p.get_rank() for p in self.reqs + self.uses]`: thread the state (ranks
collected so far, memo table) through one element; a failed recursive call
(out of fuel, modelling non-termination on a cycle) propagates. -/
def rankAcc (f : Memo → Nat → Option (Nat × Memo)) :
    Option (List Nat × Memo) → Nat → Option (List Nat × Memo)
  | none, _ => none
  | some (rs, m), q =>
    match f m q with
    | none => none
    | some (r, m1) => some (rs ++ [r], m1)

/-- Method `Package.get_rank`, with the memo table threaded through. -/
def get_rank (cat : Catalog) : Nat → Memo → Nat → Option (Nat × Memo)
  | 0, _, _ => none
  | fuel + 1, memo, p =>
    match memo p with
    | some r => some (r, memo)
    | none =>
      match pdeps cat p with
      | [] => some (0, mupd memo p 0)
      | _ :: _ =>
        match (pdeps cat p).foldl (rankAcc (fun m q => get_rank cat fuel m q))
            (some ([], memo)) with
        | none => none
        | some (rs, memo1) => some (pymax rs + 1, mupd memo1 p (pymax rs + 1))

/-! ## `install_packs` (lines 1535-1571), scheduling part

```
done = []
def is_ready(v):
    return v in done or v.pack.installed
def req_ready(v):
    return all([is_ready(rv) for rv in to_install[v]])
while to_install:
    v = sorted(filter(req_ready, to_install), key=lambda v: v.pack.get_rank())[0]
    del to_install[v]
    ...
    done.append(v)
```

`sorted(...)[0]` of an empty candidate list raises `IndexError`; we keep
that outcome distinct from fuel exhaustion.  The sort key
`v.pack.get_rank()` reads the memoized ranks; it is modelled by a rank
function `rank : Nat → Nat` on package ids. -/

/-- Predicate `is_ready(v)`: already processed in this run, or its package is
already installed. -/
def isReady (cat : Catalog) (done : List Vers) (rv : Vers) : Bool :=
  decide (rv ∈ done) || (cat rv.pack).installed

/-- Selection `sorted(cands, key=rank)[0]`: the first element with the minimal key
(Python's sort is stable).  `none` on an empty list models `IndexError`. -/
def pick (rank : Nat → Nat) : List (Vers × List Vers) → Option (Vers × List Vers)
  | [] => none
  | c :: cs => some (cs.foldl (fun b x => if rank x.1.pack < rank b.1.pack then x else b) c)

/-- The `while to_install` scheduling loop.  Returns the installation
order; `.error "IndexError"` models the crash on an empty candidate
list. -/
def installLoop (cat : Catalog) (rank : Nat → Nat) :
    Nat → TI → List Vers → Except String (List Vers)
  | 0, ti, done => if ti.isEmpty then .ok done else .error "fuel"
  | fuel + 1, ti, done =>
    match ti with
    | [] => .ok done
    | _ :: _ =>
      match pick rank (ti.filter (fun c => c.2.all (isReady cat done))) with
      | none => .error "IndexError"
      | some c =>
        installLoop cat rank fuel (ti.eraseP (fun x => decide (x.1 = c.1)))
          (done ++ [c.1])

/-- The scheduling part of `install_packs`: run the loop on the closure
with an empty `done` list. -/
def install_order (cat : Catalog) (rank : Nat → Nat) (ti : TI) (fuel : Nat) :
    Except String (List Vers) :=
  installLoop cat rank fuel ti []

/-! ## Actions (lines 344-462): `Remove`, `Install`, parsing and reversal -/

/-- An XML element of an install script: a tag and its attributes. -/
structure Elt where
  tag : String
  attrs : List (String × String)

/-- Lookup `elt.get(name, None)`. -/
def Elt.get (e : Elt) (name : String) : Option String :=
  (e.attrs.find? (fun a => a.1 = name)).map Prod.snd

/-- The parsed state of an `Install` or `Remove` action. -/
inductive Action where
  | install (path tgt : String)
  | remove (path : String)
deriving DecidableEq, Repr

/-- Method `Install.reverse` returns `Remove(self.to)`; `Remove` (and the base
class) return `None`. -/
def Action.reverseA : Action → Option Action
  | .install _ tgt => some (.remove tgt)
  | .remove _ => none

/-- What `Install.perform` copies: the source path `self.path` and the
target `os.path.join(mon.top_dir, self.to)`. -/
def installPerformPaths (topDir : String) : Action → Option (String × String)
  | .install path tgt => some (path, topDir ++ "/" ++ tgt)
  | .remove _ => none

/-- The host's dynamic-library suffix table `DYNLIB_EXT`, keyed by host
type. -/
def DYNLIB_EXT (host : String) : Option String :=
  if host = "linux_x86" then some ".so"
  else if host = "linux-x86_64" then some ".so"
  else if host = "win" then some ".dll"
  else if host = "win64" then some ".dll"
  else if host = "darwin-x86_64" then some ".dylib"
  else if host = "darwin-arm64" then some ".dylib"
  else none

/-- Method `Install.parse` (lines 419-432), called on a freshly constructed
`Install()` whose `path` and `to` attributes are both `None`:

```
to = elt.get("to", None)          # local variable, never used
self.path = elt.get("dynlib", None)
if self.path != None:
    ext = DYNLIB_EXT[mon.get_host_type()]
else:
    ext = ""
    self.path = elt.get("file", None)
    if self.path == None:
        raise IOError("malformed installation file")
self.path = self.path + ext
if self.to == None:
    self.to = self.path
self.to = self.to + ext
```

`to0` is the value of `self.to` at entry (`None` from `get_action`). -/
def installParse (host : String) (to0 : Option String) (elt : Elt) :
    Except String Action :=
  match elt.get "dynlib" with
  | some p =>
    match DYNLIB_EXT host with
    | none => .error "KeyError"
    | some ext =>
      let path := p ++ ext
      let to1 := match to0 with | none => path | some t => t
      .ok (.install path (to1 ++ ext))
  | none =>
    match elt.get "file" with
    | none => .error "malformed installation file"
    | some p =>
      let path := p ++ ""
      let to1 := match to0 with | none => path | some t => t
      .ok (.install path (to1 ++ ""))

/-! ## `unpack` (lines 692-706)

```
UNPACKERS = { "tar.gz": ..., "tar.bz2": ..., "zip": ..., "rar": ... }
def unpack(file, mon):
    try:
        p = file.index(".")
        ext = file[p + 1:]
        UNPACKERS[ext].unpack(file, mon)
        return file[:p]
    except (KeyError, ValueError):
        mon.fatal("don't know how to unpack %s" % file)
```

`file.index(".")` is the index of the *first* dot. -/

/-- The `UNPACKERS` table: extension to unpack command template. -/
def UNPACKERS : List (String × String) :=
  [("tar.gz", "tar xvf %s"), ("tar.bz2", "tar xvf %s"),
   ("zip", "unzip %s"), ("rar", "unrar %s")]

/-- Expression `file.index(".")`: position of the first dot, `ValueError` → `none`. -/
def firstDot (file : String) : Option Nat :=
  file.toList.findIdx? (fun c => c = '.')

/-- Function `unpack(file, mon)`: on success, the unpack command template used and
the returned directory name `file[:p]`; otherwise the fatal message. -/
def unpack (file : String) : Except String (String × String) :=
  match firstDot file with
  | none => .error ("don't know how to unpack " ++ file)
  | some p =>
    let ext := (file.toList.drop (p + 1)).asString
    match (UNPACKERS.find? (fun u => u.1 = ext)).map Prod.snd with
    | none => .error ("don't know how to unpack " ++ file)
    | some cmd => .ok (cmd, (file.toList.take p).asString)

/-! ## Builders (lines 813-937) and `SourceVersion.install` (1065-1092)

`Builder.install` is documented to "return None for failure, list of
uninstall actions for success".  `MakeBuilder.install` honours that;
`CMakeBuilder.install` returns `False` on failure instead.
`SourceVersion.install` then tests `res != None`. -/

/-- A Python value returned by a builder's `install` method: `None`,
`False`, or a list of uninstall actions. -/
inductive PyRes where
  | none
  | fls
  | acts (l : List Action)
deriving DecidableEq, Repr

/-- Method `MakeBuilder.install`: run `make install ...`; `[]` if the exit code is
zero, `None` otherwise. -/
def makeInstall (exitCode : Int) : PyRes :=
  if exitCode = 0 then .acts [] else .none

/-- Method `CMakeBuilder.install`: `mon.result_of("make install")` yields `None`
on failure — in which case the method returns `False` — or the captured
output, whose `"-- Installing: <path>"` lines become `Remove` actions on
`os.path.relpath(path, mon.top_dir)` (modelled by the `relpath`
argument). -/
def cmakeInstall (relpath : String → String) (out : Option String) : PyRes :=
  match out with
  | Option.none => .fls
  | some s =>
    .acts ((s.splitOn "\n").filterMap (fun line =>
      if line.startsWith "-- Installing: " then
        some (Action.remove (relpath (line.drop 15)))
      else Option.none))

/-- The observable outcome of `SourceVersion.install` on the owning
package: the installed flag, the recorded installed version, and whether
`save_site` rewrote the local catalog document. -/
structure InstOutcome where
  installed : Bool
  installed_version : Option String
  site_written : Bool
deriving DecidableEq, Repr

/-- Method `SourceVersion.install` (lines 1065-1092): download unless dry-run
(fatal on failure), build if a builder is present (fatal on failure), and
then — unless the package is a tool — run the builder's install step and
test `res != None`: any non-`None` result marks the package installed with
the resolved version and rewrites the site document; `None` is fatal.
`downloadOk` stands for "no downloader is attached, or it succeeded". -/
def sourceVersionInstall (dry tool hasBuilder : Bool) (downloadOk buildOk : Bool)
    (installRes : PyRes) (resolvedVersion : String) :
    Except String InstOutcome :=
  if dry = false ∧ downloadOk = false then
    .error "Download failed: see errors in build.log"
  else if hasBuilder = true ∧ buildOk = false then
    .error "Build failed: see errors in build.log"
  else if tool = false then
    if hasBuilder = false then
      .error "AttributeError: 'NoneType' object has no attribute 'install'"
    else
      match installRes with
      | .none => .error "Installation failed: see errors in build.log"
      | .fls => .ok ⟨true, some resolvedVersion, true⟩
      | .acts _ => .ok ⟨true, some resolvedVersion, true⟩
  else .ok ⟨false, none, false⟩

/-! ## Derived predicates used in the statements and proofs -/

/-- The guard of the `close_packs` loop body:
`not v.pack.installed or (mon.force and v in vs)`. -/
def Cond (cat : Catalog) (force : Bool) (vs : List Vers) (v : Vers) : Prop :=
  (cat v.pack).installed = false ∨ (force = true ∧ v ∈ vs)

/-- What a requirement `req` resolves to during `close_packs(vs)`: the last
seed version of that package if one was requested (the dict comprehension
`{v.pack: v for v in vs}` keeps the last binding), otherwise
`req.latest()`. -/
def resolve0 (cat : Catalog) (vs : List Vers) (p : Nat) :
    Except String (Option Vers) :=
  match vs.reverse.find? (fun v => v.pack = p) with
  | some v => .ok (some v)
  | none => latest cat p

/-- Invariant on `vmap`: every recorded binding is the canonical resolution,
and every seed package is bound. -/
def VC (cat : Catalog) (vs : List Vers) (vmap : Vmap) : Prop :=
  (∀ p ov, alookup vmap p = some ov → resolve0 cat vs p = .ok ov)
  ∧ ∀ v ∈ vs, (alookup vmap v.pack).isSome = true

/-- Every dependency recorded in `to_install` that satisfies the loop-body
guard is either already a key of `to_install` or still pending in
`todo`. -/
def DepsOK (cat : Catalog) (force : Bool) (vs : List Vers)
    (ti : TI) (todo : List Vers) : Prop :=
  ∀ e ∈ ti, ∀ rv ∈ e.2, Cond cat force vs rv → rv ∈ tiKeys ti ∨ rv ∈ todo

/-- Every entry of `to_install` carries, in its dependency set, the
resolution of each of its package's requirements (when that resolution is
a version). -/
def TIC (cat : Catalog) (vs : List Vers) (ti : TI) : Prop :=
  ∀ e ∈ ti, ∀ req ∈ (cat e.1.pack).reqs, ∀ rv,
    resolve0 cat vs req = .ok (some rv) → rv ∈ e.2

/-- Version `a` occurs strictly before `b` in `order`. -/
def IsBefore (order : List Vers) (a b : Vers) : Prop :=
  ∃ l1 l2, order = l1 ++ b :: l2 ∧ a ∈ l1

/-! ## A pure, fuelled rank function (specification device for `get_rank`)

`rankF` recomputes the rank recurrence without a memo table; it is used to
show that every value `get_rank` ever writes into the memo table is
canonical, hence that a memoized rank never changes. -/

/-- One step of mapping the pure rank recurrence over a dependency
list. -/
def rankFAcc (f : Nat → Option Nat) : Option (List Nat) → Nat → Option (List Nat)
  | none, _ => none
  | some rs, q =>
    match f q with
    | none => none
    | some r => some (rs ++ [r])

/-- The rank recurrence, fuelled and memo-free. -/
def rankF (cat : Catalog) : Nat → Nat → Option Nat
  | 0, _ => none
  | fuel + 1, p =>
    match pdeps cat p with
    | [] => some 0
    | _ :: _ =>
      match (pdeps cat p).foldl (rankFAcc (fun q => rankF cat fuel q))
          (some []) with
      | none => none
      | some rs => some (pymax rs + 1)

/-- Relation `HasRank cat p r`: the rank recurrence assigns `r` to `p` (with some
fuel; on an acyclic dependency graph this is the unique rank). -/
def HasRank (cat : Catalog) (p r : Nat) : Prop :=
  ∃ fuel, rankF cat fuel p = some r

/-- Every rank recorded in the memo table is canonical. -/
def MemoInv (cat : Catalog) (m : Memo) : Prop :=
  ∀ q s, m q = some s → HasRank cat q s

/-- The empty memo table (no `rank` attribute computed yet). -/
def memo0 : Memo := fun _ => none

/-! ## Claims taken verbatim from the specification (for refutation) -/

/-- C2 as stated by the spec: the closure is a superset of the request and
closed under requirements — every member of `vs` is a key of the result,
and every requirement of every member contributes a version that is again
a key of the result. -/
def C2_claim (cat : Catalog) (force : Bool) (vs : List Vers) (fuel : Nat) :
    Prop :=
  ∀ ti, close_packs cat force vs fuel = .ok ti →
    (∀ v ∈ vs, v ∈ tiKeys ti)
    ∧ ∀ e ∈ ti, ∀ req ∈ (cat e.1.pack).reqs,
        ∃ rv, rv ∈ e.2 ∧ rv.pack = req ∧ rv ∈ tiKeys ti

/-- Whether `file` ends in the extension `ext` (preceded by a dot). -/
def endsExt (file ext : String) : Bool :=
  ("." ++ ext).toList.isSuffixOf file.toList

/-- C8 as stated by the spec: `unpack` dispatches on the trailing filename
extension — a name ending in a table extension is handed to the
corresponding unpacker, and a name whose trailing extension is not in the
table is fatal. -/
def C8_claim : Prop :=
  ∀ file : String,
    (∀ ext cmd, (ext, cmd) ∈ UNPACKERS → endsExt file ext = true →
      ∃ d, unpack file = .ok (cmd, d))
    ∧ ((∀ ext, (∃ cmd, (ext, cmd) ∈ UNPACKERS) → endsExt file ext = false) →
      ∃ e, unpack file = .error e)

/-! ## Concrete catalogs used by the scenario conjuncts and witnesses -/

/-- The three-package chain of the spec scenario: package 2 (`A`) requires
package 1 (`B`), which requires package 0 (`C`); none installed, one
binary version each. -/
def exCat : Catalog := fun n =>
  if n = 2 then { reqs := [1], versions := [⟨2, "1"⟩] }
  else if n = 1 then { reqs := [0], versions := [⟨1, "1"⟩] }
  else if n = 0 then { versions := [⟨0, "1"⟩] }
  else {}

/-- The requested version of `A`. -/
def vA : Vers := ⟨2, "1"⟩

/-- The version of `B` pulled in as a requirement. -/
def vB : Vers := ⟨1, "1"⟩

/-- The version of `C` pulled in as a requirement. -/
def vC : Vers := ⟨0, "1"⟩

/-- The closure `close_packs` computes for the scenario. -/
def exTI : TI := [(vA, [vB]), (vB, [vC]), (vC, [])]

/-- The ranks `get_rank` assigns in the scenario (`C` 0, `B` 1, `A` 2). -/
def exRank : Nat → Nat := fun p => p

/-- The memo table `get_rank` leaves behind after ranking package 1 of
`exCat` from an empty table. -/
def c4memoA : Memo := mupd (mupd memo0 0 0) 1 1

/-- A two-package dependency cycle: package 0 requires package 1 and
package 1 requires package 0, one binary version each, none installed. -/
def cyCat : Catalog := fun n =>
  if n = 0 then { reqs := [1], versions := [⟨0, "1"⟩] }
  else if n = 1 then { reqs := [0], versions := [⟨1, "1"⟩] }
  else {}

/-- The requested version in the cyclic catalog. -/
def cyV0 : Vers := ⟨0, "1"⟩

/-- The other version in the cycle. -/
def cyV1 : Vers := ⟨1, "1"⟩

/-- The closure `close_packs` computes for the cyclic catalog. -/
def cyTI : TI := [(cyV0, [cyV1]), (cyV1, [cyV0])]

/-- Counterexample catalog for C2: package 0 (`P`, not installed) requires
package 1 (`Q`, installed); package 2 (`R`, installed) is independent. -/
def c2Cat : Catalog := fun n =>
  if n = 0 then { reqs := [1], versions := [⟨0, "1"⟩] }
  else if n = 1 then { installed := true, versions := [⟨1, "1"⟩] }
  else if n = 2 then { installed := true, versions := [⟨2, "1"⟩] }
  else {}

/-- The requested, not-installed version of `P` in `c2Cat`. -/
def vP : Vers := ⟨0, "1"⟩

/-- The version of the installed requirement `Q` in `c2Cat`. -/
def vQ : Vers := ⟨1, "1"⟩

/-- The requested version of the installed, independent `R` in `c2Cat`. -/
def vR : Vers := ⟨2, "1"⟩

/-- Catalog exercising `Package.latest`: package 0 has two binary
versions, package 1 one binary and one source version, package 2 only a
source version. -/
def c10Cat : Catalog := fun n =>
  if n = 0 then { versions := [⟨0, "2"⟩, ⟨0, "1"⟩] }
  else if n = 1 then { versions := [⟨1, "source"⟩, ⟨1, "3"⟩] }
  else if n = 2 then { versions := [⟨2, "source"⟩] }
  else {}

/-! # Theorems -/

/-- C5. The cmake builder's install step violates the `Builder.install`
contract ("return None for failure, list of uninstall actions for
success"): on a failed `make install` (`result_of` returns `None`) it
returns `False`, and `SourceVersion.install`'s `res != None` test then
treats the failure as success — the package is marked installed with the
resolved version and the site document is rewritten.  The make builder, by
contrast, returns `None` on failure, which is correctly fatal. -/
theorem c5_cmake_failure_marked_installed :
    cmakeInstall id none = PyRes.fls
    ∧ sourceVersionInstall false false true true true PyRes.fls "1.0"
        = .ok ⟨true, some "1.0", true⟩
    ∧ makeInstall 1 = PyRes.none
    ∧ sourceVersionInstall false false true true true PyRes.none "1.0"
        = .error "Installation failed: see errors in build.log" :=
  ⟨rfl, rfl, rfl, rfl⟩

/-- C6. On the two-package cycle, `close_packs` yields a non-empty
closure none of whose members has all dependencies installed-or-done, and
`install_packs`' scheduling loop then fails with the index error of
`sorted(...)[0]` on an empty candidate list instead of reporting a
dependency cycle.  (The sort key is never evaluated on the empty candidate
list, so the rank function is irrelevant here.) -/
theorem c6_cycle_index_error :
    close_packs cyCat false [cyV0] 9 = .ok cyTI
    ∧ cyTI ≠ []
    ∧ (∀ e ∈ cyTI, e.2.all (isReady cyCat []) = false)
    ∧ install_order cyCat (fun _ => 0) cyTI 9 = .error "IndexError" :=
  ⟨rfl, by decide, by decide, rfl⟩

/-- C7. Parsing `<install dynlib="foo"/>` on a host with
dynamic-library suffix `".so"` yields an `Install` whose source path is
`"foo.so"` but whose target path is `"foo.so.so"` — the suffix is appended
a second time to `self.to` (and the parsed `to` attribute is dropped into
an unused local variable) — so `perform` copies `foo.so` to `foo.so.so`
under the target root and `reverse()` is `Remove("foo.so.so")`, not the
`Remove("foo.so")` the spec scenario states. -/
theorem c7_dynlib_double_suffix :
    installParse "linux-x86_64" none ⟨"install", [("dynlib", "foo")]⟩
        = .ok (.install "foo.so" "foo.so.so")
    ∧ Action.reverseA (.install "foo.so" "foo.so.so")
        = some (.remove "foo.so.so")
    ∧ installPerformPaths "/top" (.install "foo.so" "foo.so.so")
        = some ("foo.so", "/top/foo.so.so") :=
  ⟨rfl, rfl, rfl⟩

/-! ## `Package.latest` lemmas (C10) -/

theorem latestLoop_nil_bin (vs : List Vers) (l : Option Vers)
    (h : vs.filter (fun v => v.version ≠ SRCE_VERS) = []) :
    latestLoop vs l = .ok l := by
  induction vs generalizing l with
  | nil => rfl
  | cons v vs ih =>
    by_cases hv : v.version = SRCE_VERS
    · have hf : (v :: vs).filter (fun v => v.version ≠ SRCE_VERS)
          = vs.filter (fun v => v.version ≠ SRCE_VERS) := by
        simp [List.filter_cons, hv]
      rw [hf] at h
      simpa [latestLoop, hv] using ih l h
    · have hf : (v :: vs).filter (fun v => v.version ≠ SRCE_VERS)
          = v :: vs.filter (fun v => v.version ≠ SRCE_VERS) := by
        simp [List.filter_cons, hv]
      rw [hf] at h
      simp at h

theorem latestLoop_some_bin (vs : List Vers) (x : Vers)
    (h : vs.filter (fun v => v.version ≠ SRCE_VERS) ≠ []) :
    latestLoop vs (some x) = .error attrError := by
  induction vs with
  | nil => simp at h
  | cons v vs ih =>
    by_cases hv : v.version = SRCE_VERS
    · have hf : (v :: vs).filter (fun v => v.version ≠ SRCE_VERS)
          = vs.filter (fun v => v.version ≠ SRCE_VERS) := by
        simp [List.filter_cons, hv]
      rw [hf] at h
      simpa [latestLoop, hv] using ih h
    · simp [latestLoop, hv]

theorem latestLoop_one_bin (vs : List Vers) (b : Vers)
    (h : vs.filter (fun v => v.version ≠ SRCE_VERS) = [b]) :
    latestLoop vs none = .ok (some b) := by
  induction vs with
  | nil => simp at h
  | cons v vs ih =>
    by_cases hv : v.version = SRCE_VERS
    · have hf : (v :: vs).filter (fun v => v.version ≠ SRCE_VERS)
          = vs.filter (fun v => v.version ≠ SRCE_VERS) := by
        simp [List.filter_cons, hv]
      rw [hf] at h
      simpa [latestLoop, hv] using ih h
    · have hf : (v :: vs).filter (fun v => v.version ≠ SRCE_VERS)
          = v :: vs.filter (fun v => v.version ≠ SRCE_VERS) := by
        simp [List.filter_cons, hv]
      rw [hf] at h
      rw [List.cons_eq_cons] at h
      obtain ⟨rfl, h2⟩ := h
      simpa [latestLoop, hv] using latestLoop_nil_bin vs (some v) h2

theorem latestLoop_two_bin (vs : List Vers)
    (h : 2 ≤ (vs.filter (fun v => v.version ≠ SRCE_VERS)).length) :
    latestLoop vs none = .error attrError := by
  induction vs with
  | nil => simp at h
  | cons v vs ih =>
    by_cases hv : v.version = SRCE_VERS
    · have hf : (v :: vs).filter (fun v => v.version ≠ SRCE_VERS)
          = vs.filter (fun v => v.version ≠ SRCE_VERS) := by
        simp [List.filter_cons, hv]
      rw [hf] at h
      simpa [latestLoop, hv] using ih h
    · have hf : (v :: vs).filter (fun v => v.version ≠ SRCE_VERS)
          = v :: vs.filter (fun v => v.version ≠ SRCE_VERS) := by
        simp [List.filter_cons, hv]
      rw [hf] at h
      have hne : vs.filter (fun v => v.version ≠ SRCE_VERS) ≠ [] := by
        intro hnil
        rw [hnil] at h
        simp at h
      simpa [latestLoop, hv] using latestLoop_some_bin vs v hne

/-- C10. `Package.latest` is total only up to one binary (non-source)
version: with no binary version it returns `source()` (a source version or
`None`), with exactly one it returns that version, and with two or more it
raises `AttributeError`, because the comparison `is_younger(v, l)` is
handed the `Version` objects themselves, which have no `split` method. -/
theorem c10_latest (cat : Catalog) (p : Nat) :
    ((cat p).versions.filter (fun v => v.version ≠ SRCE_VERS) = [] →
        latest cat p = .ok (source cat p))
    ∧ (∀ b, (cat p).versions.filter (fun v => v.version ≠ SRCE_VERS) = [b] →
        latest cat p = .ok (some b))
    ∧ (2 ≤ ((cat p).versions.filter (fun v => v.version ≠ SRCE_VERS)).length →
        latest cat p = .error attrError) := by
  refine ⟨fun h => ?_, fun b h => ?_, fun h => ?_⟩
  · rw [latest, latestLoop_nil_bin _ _ h]
  · rw [latest, latestLoop_one_bin _ _ h]
  · rw [latest, latestLoop_two_bin _ h]

/-- Witness for C10 on `c10Cat`: two binary versions crash, one binary
version is returned, a lone source version falls back to `source()`. -/
theorem c10_witness :
    latest c10Cat 0 = .error attrError
    ∧ latest c10Cat 1 = .ok (some ⟨1, "3"⟩)
    ∧ latest c10Cat 2 = .ok (source c10Cat 2) :=
  ⟨(c10_latest c10Cat 0).2.2 (by decide),
   (c10_latest c10Cat 1).2.1 ⟨1, "3"⟩ (by decide),
   (c10_latest c10Cat 2).1 (by decide)⟩

/-! ## Version-order lemmas (C9) -/

theorem pyCharsLT_lex (l1 l2 : List Char) :
    pyCharsLT l1 l2 = true ↔ List.Lex (· < ·) l1 l2 := by
  induction l1 generalizing l2 with
  | nil =>
    cases l2 with
    | nil =>
      simp only [pyCharsLT]
      constructor
      · intro h; exact absurd h (by simp)
      · intro h; cases h
    | cons d ds =>
      simp only [pyCharsLT]
      exact ⟨fun _ => List.Lex.nil, fun _ => by simp⟩
  | cons c cs ih =>
    cases l2 with
    | nil =>
      simp only [pyCharsLT]
      constructor
      · intro h; exact absurd h (by simp)
      · intro h; cases h
    | cons d ds =>
      simp only [pyCharsLT]
      by_cases h1 : c < d
      · simp only [h1, if_pos]
        exact ⟨fun _ => List.Lex.rel h1, fun _ => by simp⟩
      · by_cases h2 : c = d
        · subst h2
          rw [show (if c < c then true
              else if c = c then pyCharsLT cs ds else false) = pyCharsLT cs ds
            from by simp [h1]]
          rw [ih ds]
          constructor
          · exact fun h => List.Lex.cons h
          · intro h
            cases h with
            | cons h => exact h
            | rel h => exact absurd h h1
        · simp only [if_neg h1, if_neg h2]
          constructor
          · intro h; exact absurd h (by simp)
          · intro h
            cases h with
            | cons h => exact absurd rfl h2
            | rel h => exact absurd h h1

theorem pyStrLT_lt (a b : String) : pyStrLT a b = true ↔ a < b := by
  rw [String.lt_iff_toList_lt]
  exact pyCharsLT_lex a.toList b.toList

theorem pyListLT_lex (l1 l2 : List String) :
    pyListLT l1 l2 = true ↔ List.Lex (· < ·) l1 l2 := by
  induction l1 generalizing l2 with
  | nil =>
    cases l2 with
    | nil =>
      simp only [pyListLT]
      constructor
      · intro h; exact absurd h (by simp)
      · intro h; cases h
    | cons y ys =>
      simp only [pyListLT]
      exact ⟨fun _ => List.Lex.nil, fun _ => by simp⟩
  | cons x xs ih =>
    cases l2 with
    | nil =>
      simp only [pyListLT]
      constructor
      · intro h; exact absurd h (by simp)
      · intro h; cases h
    | cons y ys =>
      simp only [pyListLT]
      by_cases h1 : pyStrLT x y = true
      · simp only [h1, if_pos]
        exact ⟨fun _ => List.Lex.rel ((pyStrLT_lt x y).mp h1), fun _ => by simp⟩
      · by_cases h2 : x = y
        · subst h2
          rw [show (if pyStrLT x x = true then true
              else if x = x then pyListLT xs ys else false) = pyListLT xs ys
            from by simp [h1]]
          rw [ih ys]
          constructor
          · exact fun h => List.Lex.cons h
          · intro h
            cases h with
            | cons h => exact h
            | rel h => exact absurd ((pyStrLT_lt x x).mpr h) h1
        · simp only [if_neg h1, if_neg h2]
          constructor
          · intro h; exact absurd h (by simp)
          · intro h
            cases h with
            | cons h => exact absurd rfl h2
            | rel h => exact absurd ((pyStrLT_lt x y).mpr h) h1

/-- C9. `is_younger(v1, v2)` holds exactly when the whitespace-split
component list of `v1` is lexicographically greater (element-wise *string*
comparison) than that of `v2`; in particular `is_younger("1.2", "1.10")`
is true, because each splits into a single component and `"1.2"` exceeds
`"1.10"` as a string. -/
theorem c9_is_younger :
    (∀ v1 v2, is_younger v1 v2 = true ↔
      List.Lex (· < ·) (pySplit v2) (pySplit v1))
    ∧ pySplit "1.2" = ["1.2"]
    ∧ pySplit "1.10" = ["1.10"]
    ∧ is_younger "1.2" "1.10" = true
    ∧ ("1.10" : String) < "1.2" :=
  ⟨fun _ _ => pyListLT_lex _ _, by decide, by decide, by decide,
   String.lt_iff_toList_lt.mpr (by decide)⟩

/-- Witness for C9: the characterization applied at `"1.2"`/`"1.10"`. -/
theorem c9_witness :
    List.Lex (· < ·) (pySplit "1.10") (pySplit "1.2") :=
  (c9_is_younger.1 "1.2" "1.10").mp (by decide)

/-! ## `close_packs` invariants (C2, C3) -/

theorem alookup_append (m l : Vmap) (p : Nat) :
    alookup (m ++ l) p = (alookup m p).or (alookup l p) := by
  induction m with
  | nil => simp [alookup]
  | cons e m ih =>
    by_cases h : e.1 = p
    · simp [alookup, h]
    · simp [alookup, h, ih]

theorem alookup_seed (l : List Vers) (p : Nat) :
    alookup (l.map (fun v => (v.pack, some v))) p
      = (l.find? (fun v => v.pack = p)).map (fun v => some v) := by
  induction l with
  | nil => rfl
  | cons v l ih =>
    by_cases h : v.pack = p
    · simp [alookup, List.find?_cons_of_pos, h]
    · simp only [List.map_cons]
      rw [show alookup ((v.pack, some v) :: l.map (fun v => (v.pack, some v))) p
          = alookup (l.map (fun v => (v.pack, some v))) p from by simp [alookup, h]]
      rw [List.find?_cons_of_neg _ (by simpa using h), ih]

theorem VC_init (cat : Catalog) (vs : List Vers) :
    VC cat vs (vs.reverse.map (fun v => (v.pack, some v))) := by
  constructor
  · intro p ov h
    rw [alookup_seed] at h
    cases hf : vs.reverse.find? (fun v => v.pack = p) with
    | none => rw [hf] at h; simp at h
    | some w =>
      rw [hf] at h
      simp only [Option.map_some'] at h
      cases h
      unfold resolve0
      rw [hf]
  · intro v hv
    rw [alookup_seed]
    cases hf : vs.reverse.find? (fun v' => v'.pack = v.pack) with
    | none =>
      rw [List.find?_eq_none] at hf
      exact absurd (by simp) (hf v (List.mem_reverse.mpr hv))
    | some w => simp

theorem resolveReq_spec (cat : Catalog) (vs : List Vers) (vmap : Vmap)
    (req : Nat) (rv : Option Vers) (vmap1 : Vmap)
    (hvc : VC cat vs vmap)
    (h : resolveReq cat vmap req = .ok (rv, vmap1)) :
    VC cat vs vmap1 ∧ resolve0 cat vs req = .ok rv := by
  unfold resolveReq at h
  cases ha : alookup vmap req with
  | some rv0 =>
    rw [ha] at h
    simp only [Except.ok.injEq, Prod.mk.injEq] at h
    obtain ⟨rfl, rfl⟩ := h
    exact ⟨hvc, hvc.1 req rv0 ha⟩
  | none =>
    rw [ha] at h
    cases hl : latest cat req with
    | error e => rw [hl] at h; simp at h
    | ok rv0 =>
      rw [hl] at h
      simp only [Except.ok.injEq, Prod.mk.injEq] at h
      obtain ⟨rfl, rfl⟩ := h
      have hres : resolve0 cat vs req = .ok rv0 := by
        unfold resolve0
        cases hf : vs.reverse.find? (fun v => v.pack = req) with
        | none => exact hl
        | some w =>
          exfalso
          have hw : w ∈ vs := List.mem_reverse.mp (List.mem_of_find?_eq_some hf)
          have hwp : w.pack = req := by simpa using List.find?_some hf
          have hs := hvc.2 w hw
          rw [hwp, ha] at hs
          simp at hs
      refine ⟨⟨?_, ?_⟩, hres⟩
      · intro p ov hp
        rw [alookup_append] at hp
        cases ha2 : alookup vmap p with
        | some x =>
          rw [ha2, Option.or_some] at hp
          cases hp
          exact hvc.1 p ov ha2
        | none =>
          rw [ha2, Option.none_or] at hp
          by_cases hreq : req = p
          · subst hreq
            rw [show alookup [(req, rv0)] req = some rv0 from by simp [alookup]] at hp
            cases hp
            exact hres
          · rw [show alookup [(req, rv0)] p = none from by simp [alookup, hreq]] at hp
            simp at hp
      · intro v hv
        have hs := hvc.2 v hv
        rw [alookup_append]
        cases ha2 : alookup vmap v.pack with
        | none => rw [ha2] at hs; simp at hs
        | some x => rw [Option.or_some]; rfl

theorem addRV_fst_mem (ti : TI) (rv : Vers) (rvs todo : List Vers) (x : Vers) :
    x ∈ (addRV ti rv rvs todo).1 ↔ x ∈ rvs ∨ x = rv := by
  unfold addRV
  by_cases h : rv ∈ rvs
  · simp only [if_pos h]
    constructor
    · exact Or.inl
    · rintro (hx | rfl)
      · exact hx
      · exact h
  · simp only [if_neg h, List.mem_append, List.mem_singleton]

theorem addRV_snd_super (ti : TI) (rv : Vers) (rvs todo : List Vers) (x : Vers)
    (hx : x ∈ todo) : x ∈ (addRV ti rv rvs todo).2 := by
  unfold addRV
  by_cases h1 : rv ∈ tiKeys ti
  · simpa [if_pos h1] using hx
  · by_cases h2 : rv ∈ todo
    · simpa [if_neg h1, if_pos h2] using hx
    · simp only [if_neg h1, if_neg h2, List.mem_append]
      exact Or.inl hx

theorem addRV_rv_cases (ti : TI) (rv : Vers) (rvs todo : List Vers) :
    rv ∈ tiKeys ti ∨ rv ∈ (addRV ti rv rvs todo).2 := by
  unfold addRV
  by_cases h1 : rv ∈ tiKeys ti
  · exact Or.inl h1
  · by_cases h2 : rv ∈ todo
    · simp only [if_neg h1, if_pos h2]
      exact Or.inr h2
    · simp only [if_neg h1, if_neg h2]
      exact Or.inr (by simp)

theorem reqsStep_mono (cat : Catalog) (ti : TI) (reqs : List Nat)
    (vmap : Vmap) (rvs todo : List Vers)
    (vmap1 : Vmap) (rvs1 todo1 : List Vers)
    (h : reqsStep cat ti reqs vmap rvs todo = .ok (vmap1, rvs1, todo1)) :
    (∀ x ∈ todo, x ∈ todo1) ∧ (∀ x ∈ rvs, x ∈ rvs1)
    ∧ (∀ x ∈ rvs1, x ∈ rvs ∨ x ∈ tiKeys ti ∨ x ∈ todo1) := by
  induction reqs generalizing vmap rvs todo with
  | nil =>
    unfold reqsStep at h
    simp only [Except.ok.injEq, Prod.mk.injEq] at h
    obtain ⟨rfl, rfl, rfl⟩ := h
    exact ⟨fun x hx => hx, fun x hx => hx, fun x hx => Or.inl hx⟩
  | cons req rest ih =>
    unfold reqsStep at h
    cases hr : resolveReq cat vmap req with
    | error e => rw [hr] at h; simp at h
    | ok pr =>
      rw [hr] at h
      obtain ⟨orv, vmapA⟩ := pr
      cases orv with
      | none => exact ih vmapA rvs todo h
      | some rv =>
        obtain ⟨m1, m2, m3⟩ := ih vmapA (addRV ti rv rvs todo).1 (addRV ti rv rvs todo).2 h
        refine ⟨?_, ?_, ?_⟩
        · exact fun x hx => m1 x (addRV_snd_super ti rv rvs todo x hx)
        · exact fun x hx => m2 x ((addRV_fst_mem ti rv rvs todo x).mpr (Or.inl hx))
        · intro x hx
          rcases m3 x hx with hx1 | hx1 | hx1
          · rcases (addRV_fst_mem ti rv rvs todo x).mp hx1 with hx2 | rfl
            · exact Or.inl hx2
            · rcases addRV_rv_cases ti x rvs todo with hk | ht
              · exact Or.inr (Or.inl hk)
              · exact Or.inr (Or.inr (m1 x ht))
          · exact Or.inr (Or.inl hx1)
          · exact Or.inr (Or.inr hx1)

theorem reqsStep_resolve (cat : Catalog) (vs : List Vers) (ti : TI)
    (reqs : List Nat) (vmap : Vmap) (rvs todo : List Vers)
    (vmap1 : Vmap) (rvs1 todo1 : List Vers)
    (hvc : VC cat vs vmap)
    (h : reqsStep cat ti reqs vmap rvs todo = .ok (vmap1, rvs1, todo1)) :
    VC cat vs vmap1
    ∧ ∀ req ∈ reqs, ∀ rv, resolve0 cat vs req = .ok (some rv) → rv ∈ rvs1 := by
  induction reqs generalizing vmap rvs todo with
  | nil =>
    unfold reqsStep at h
    simp only [Except.ok.injEq, Prod.mk.injEq] at h
    obtain ⟨rfl, -, -⟩ := h
    exact ⟨hvc, by simp⟩
  | cons req rest ih =>
    unfold reqsStep at h
    cases hr : resolveReq cat vmap req with
    | error e => rw [hr] at h; simp at h
    | ok pr =>
      rw [hr] at h
      obtain ⟨orv, vmapA⟩ := pr
      obtain ⟨hvcA, hresA⟩ := resolveReq_spec cat vs vmap req orv vmapA hvc hr
      cases orv with
      | none =>
        obtain ⟨hvc1, hall⟩ := ih vmapA rvs todo hvcA h
        refine ⟨hvc1, ?_⟩
        intro q hq rv hrv
        rcases List.mem_cons.mp hq with rfl | hq2
        · rw [hresA] at hrv
          simp at hrv
        · exact hall q hq2 rv hrv
      | some rva =>
        obtain ⟨hvc1, hall⟩ :=
          ih vmapA (addRV ti rva rvs todo).1 (addRV ti rva rvs todo).2 hvcA h
        refine ⟨hvc1, ?_⟩
        intro q hq rv hrv
        rcases List.mem_cons.mp hq with rfl | hq2
        · rw [hresA] at hrv
          simp only [Except.ok.injEq, Option.some.injEq] at hrv
          subst hrv
          have hmem : rva ∈ (addRV ti rva rvs todo).1 :=
            (addRV_fst_mem ti rva rvs todo rva).mpr (Or.inr rfl)
          exact (reqsStep_mono cat ti rest vmapA _ _ vmap1 rvs1 todo1 h).2.1 rva hmem
        · exact hall q hq2 rv hrv

theorem tiKeys_tiSet_super (ti : TI) (v : Vers) (rvs : List Vers) (k : Vers)
    (hk : k ∈ tiKeys ti) : k ∈ tiKeys (tiSet ti v rvs) := by
  unfold tiSet
  by_cases hv : v ∈ tiKeys ti
  · rw [if_pos hv]
    unfold tiKeys at hk ⊢
    obtain ⟨e, he, rfl⟩ := List.mem_map.mp hk
    rw [List.map_map]
    apply List.mem_map.mpr
    refine ⟨e, he, ?_⟩
    by_cases h : e.1 = v
    · simp [h]
    · simp [h]
  · rw [if_neg hv]
    unfold tiKeys at hk ⊢
    rw [List.map_append]
    exact List.mem_append.mpr (Or.inl hk)

theorem tiKeys_tiSet_self (ti : TI) (v : Vers) (rvs : List Vers) :
    v ∈ tiKeys (tiSet ti v rvs) := by
  unfold tiSet
  by_cases hv : v ∈ tiKeys ti
  · rw [if_pos hv]
    obtain ⟨e, he, hfst⟩ := List.mem_map.mp hv
    unfold tiKeys
    rw [List.map_map]
    exact List.mem_map.mpr ⟨e, he, by simp [hfst]⟩
  · rw [if_neg hv]
    unfold tiKeys
    rw [List.map_append]
    exact List.mem_append.mpr (Or.inr (by simp))

theorem mem_tiSet (ti : TI) (v : Vers) (rvs : List Vers) (e : Vers × List Vers)
    (he : e ∈ tiSet ti v rvs) : e = (v, rvs) ∨ (e ∈ ti ∧ e.1 ≠ v) := by
  unfold tiSet at he
  by_cases hv : v ∈ tiKeys ti
  · rw [if_pos hv] at he
    obtain ⟨x, hx, hxe⟩ := List.mem_map.mp he
    by_cases hx1 : x.1 = v
    · rw [if_pos hx1] at hxe
      exact Or.inl hxe.symm
    · rw [if_neg hx1] at hxe
      subst hxe
      exact Or.inr ⟨hx, hx1⟩
  · rw [if_neg hv] at he
    rcases List.mem_append.mp he with h | h
    · refine Or.inr ⟨h, fun hev => ?_⟩
      exact hv (hev ▸ List.mem_map.mpr ⟨e, h, rfl⟩)
    · simp only [List.mem_singleton] at h
      exact Or.inl h

theorem tiKeys_tiSet_sub (ti : TI) (v : Vers) (rvs : List Vers) (k : Vers)
    (hk : k ∈ tiKeys (tiSet ti v rvs)) : k = v ∨ k ∈ tiKeys ti := by
  unfold tiKeys at hk
  obtain ⟨e, he, rfl⟩ := List.mem_map.mp hk
  rcases mem_tiSet ti v rvs e he with rfl | ⟨hein, -⟩
  · exact Or.inl rfl
  · exact Or.inr (List.mem_map.mpr ⟨e, hein, rfl⟩)

theorem closeLoop_keys_mono (cat : Catalog) (force : Bool) (vs : List Vers) :
    ∀ fuel vmap todo ti tf,
      closeLoop cat force vs fuel vmap todo ti = .ok tf →
      ∀ k ∈ tiKeys ti, k ∈ tiKeys tf := by
  intro fuel
  induction fuel with
  | zero =>
    intro vmap todo ti tf h
    cases todo with
    | nil =>
      simp only [closeLoop, List.isEmpty_nil, if_true, Except.ok.injEq] at h
      subst h
      exact fun k hk => hk
    | cons v rest => simp [closeLoop] at h
  | succ fuel ih =>
    intro vmap todo ti tf h
    cases todo with
    | nil =>
      simp only [closeLoop, Except.ok.injEq] at h
      subst h
      exact fun k hk => hk
    | cons v rest =>
      simp only [closeLoop] at h
      by_cases hc : (cat v.pack).installed = false ∨ (force = true ∧ v ∈ vs)
      · rw [if_pos hc] at h
        cases hr : reqsStep cat ti (cat v.pack).reqs vmap [] rest with
        | error e => rw [hr] at h; simp at h
        | ok trip =>
          rw [hr] at h
          obtain ⟨vmapA, rvsA, todoA⟩ := trip
          exact fun k hk =>
            ih vmapA todoA (tiSet ti v rvsA) tf h k (tiKeys_tiSet_super ti v rvsA k hk)
      · rw [if_neg hc] at h
        exact ih vmap rest ti tf h

theorem closeLoop_todo_key (cat : Catalog) (force : Bool) (vs : List Vers) :
    ∀ fuel vmap todo ti tf,
      closeLoop cat force vs fuel vmap todo ti = .ok tf →
      ∀ v ∈ todo, Cond cat force vs v → v ∈ tiKeys tf := by
  intro fuel
  induction fuel with
  | zero =>
    intro vmap todo ti tf h
    cases todo with
    | nil => intro v hv; simp at hv
    | cons v rest => simp [closeLoop] at h
  | succ fuel ih =>
    intro vmap todo ti tf h
    cases todo with
    | nil => intro v hv; simp at hv
    | cons v rest =>
      simp only [closeLoop] at h
      by_cases hc : (cat v.pack).installed = false ∨ (force = true ∧ v ∈ vs)
      · rw [if_pos hc] at h
        cases hr : reqsStep cat ti (cat v.pack).reqs vmap [] rest with
        | error e => rw [hr] at h; simp at h
        | ok trip =>
          rw [hr] at h
          obtain ⟨vmapA, rvsA, todoA⟩ := trip
          intro w hw hcw
          rcases List.mem_cons.mp hw with rfl | hw2
          · exact closeLoop_keys_mono cat force vs fuel vmapA todoA _ tf h w
              (tiKeys_tiSet_self ti w rvsA)
          · exact ih vmapA todoA _ tf h w
              ((reqsStep_mono cat ti _ vmap [] rest vmapA rvsA todoA hr).1 w hw2) hcw
      · rw [if_neg hc] at h
        intro w hw hcw
        rcases List.mem_cons.mp hw with rfl | hw2
        · exact absurd hcw hc
        · exact ih vmap rest ti tf h w hw2 hcw

theorem closeLoop_keys_cond (cat : Catalog) (force : Bool) (vs : List Vers) :
    ∀ fuel vmap todo ti tf,
      closeLoop cat force vs fuel vmap todo ti = .ok tf →
      (∀ k ∈ tiKeys ti, Cond cat force vs k) →
      ∀ k ∈ tiKeys tf, Cond cat force vs k := by
  intro fuel
  induction fuel with
  | zero =>
    intro vmap todo ti tf h hks
    cases todo with
    | nil =>
      simp only [closeLoop, List.isEmpty_nil, if_true, Except.ok.injEq] at h
      subst h
      exact hks
    | cons v rest => simp [closeLoop] at h
  | succ fuel ih =>
    intro vmap todo ti tf h hks
    cases todo with
    | nil =>
      simp only [closeLoop, Except.ok.injEq] at h
      subst h
      exact hks
    | cons v rest =>
      simp only [closeLoop] at h
      by_cases hc : (cat v.pack).installed = false ∨ (force = true ∧ v ∈ vs)
      · rw [if_pos hc] at h
        cases hr : reqsStep cat ti (cat v.pack).reqs vmap [] rest with
        | error e => rw [hr] at h; simp at h
        | ok trip =>
          rw [hr] at h
          obtain ⟨vmapA, rvsA, todoA⟩ := trip
          refine ih vmapA todoA _ tf h ?_
          intro k hk
          rcases tiKeys_tiSet_sub ti v rvsA k hk with rfl | hk2
          · exact hc
          · exact hks k hk2
      · rw [if_neg hc] at h
        exact ih vmap rest ti tf h hks

theorem closeLoop_deps (cat : Catalog) (force : Bool) (vs : List Vers) :
    ∀ fuel vmap todo ti tf,
      closeLoop cat force vs fuel vmap todo ti = .ok tf →
      DepsOK cat force vs ti todo →
      ∀ e ∈ tf, ∀ rv ∈ e.2, Cond cat force vs rv → rv ∈ tiKeys tf := by
  intro fuel
  induction fuel with
  | zero =>
    intro vmap todo ti tf h hdep
    cases todo with
    | nil =>
      simp only [closeLoop, List.isEmpty_nil, if_true, Except.ok.injEq] at h
      subst h
      intro e he rv hrv hcrv
      rcases hdep e he rv hrv hcrv with hk | hvr
      · exact hk
      · simp at hvr
    | cons v rest => simp [closeLoop] at h
  | succ fuel ih =>
    intro vmap todo ti tf h hdep
    cases todo with
    | nil =>
      simp only [closeLoop, Except.ok.injEq] at h
      subst h
      intro e he rv hrv hcrv
      rcases hdep e he rv hrv hcrv with hk | hvr
      · exact hk
      · simp at hvr
    | cons v rest =>
      simp only [closeLoop] at h
      by_cases hc : (cat v.pack).installed = false ∨ (force = true ∧ v ∈ vs)
      · rw [if_pos hc] at h
        cases hr : reqsStep cat ti (cat v.pack).reqs vmap [] rest with
        | error e => rw [hr] at h; simp at h
        | ok trip =>
          rw [hr] at h
          obtain ⟨vmapA, rvsA, todoA⟩ := trip
          refine ih vmapA todoA _ tf h ?_
          intro e he rv hrv hcrv
          rcases mem_tiSet ti v rvsA e he with rfl | ⟨hein, -⟩
          · rcases (reqsStep_mono cat ti _ vmap [] rest vmapA rvsA todoA hr).2.2
                rv hrv with h0 | hk | ht
            · simp at h0
            · exact Or.inl (tiKeys_tiSet_super ti v rvsA rv hk)
            · exact Or.inr ht
          · rcases hdep e hein rv hrv hcrv with hk | hvr
            · exact Or.inl (tiKeys_tiSet_super ti v rvsA rv hk)
            · rcases List.mem_cons.mp hvr with rfl | hr2
              · exact Or.inl (tiKeys_tiSet_self ti rv rvsA)
              · exact Or.inr
                  ((reqsStep_mono cat ti _ vmap [] rest vmapA rvsA todoA hr).1 rv hr2)
      · rw [if_neg hc] at h
        refine ih vmap rest ti tf h ?_
        intro e he rv hrv hcrv
        rcases hdep e he rv hrv hcrv with hk | hvr
        · exact Or.inl hk
        · rcases List.mem_cons.mp hvr with rfl | hr2
          · exact absurd hcrv hc
          · exact Or.inr hr2

theorem closeLoop_tic (cat : Catalog) (force : Bool) (vs : List Vers) :
    ∀ fuel vmap todo ti tf,
      closeLoop cat force vs fuel vmap todo ti = .ok tf →
      VC cat vs vmap → TIC cat vs ti → TIC cat vs tf := by
  intro fuel
  induction fuel with
  | zero =>
    intro vmap todo ti tf h hvc htic
    cases todo with
    | nil =>
      simp only [closeLoop, List.isEmpty_nil, if_true, Except.ok.injEq] at h
      subst h
      exact htic
    | cons v rest => simp [closeLoop] at h
  | succ fuel ih =>
    intro vmap todo ti tf h hvc htic
    cases todo with
    | nil =>
      simp only [closeLoop, Except.ok.injEq] at h
      subst h
      exact htic
    | cons v rest =>
      simp only [closeLoop] at h
      by_cases hc : (cat v.pack).installed = false ∨ (force = true ∧ v ∈ vs)
      · rw [if_pos hc] at h
        cases hr : reqsStep cat ti (cat v.pack).reqs vmap [] rest with
        | error e => rw [hr] at h; simp at h
        | ok trip =>
          rw [hr] at h
          obtain ⟨vmapA, rvsA, todoA⟩ := trip
          obtain ⟨hvcA, hall⟩ :=
            reqsStep_resolve cat vs ti _ vmap [] rest vmapA rvsA todoA hvc hr
          refine ih vmapA todoA _ tf h hvcA ?_
          intro e he req hreq rv hrv
          rcases mem_tiSet ti v rvsA e he with rfl | ⟨hein, -⟩
          · exact hall req hreq rv hrv
          · exact htic e hein req hreq rv hrv
      · rw [if_neg hc] at h
        exact ih vmap rest ti tf h hvc htic

/-- C3. A version owned by an already-installed package is excluded
from the work set computed by `close_packs`: every member of the result
owned by an installed package got there through the one exception (force
flag set *and* explicitly requested); conversely, an installed, explicitly
requested version is in the work set when force is set, and never when
force is clear.  Installed versions pulled in only as dependencies never
pass the `mon.force and v in vs` test, so they are never reinstalled. -/
theorem c3_skip_installed (cat : Catalog) (force : Bool) (vs : List Vers)
    (fuel : Nat) (ti : TI)
    (h : close_packs cat force vs fuel = .ok ti) :
    (∀ e ∈ ti, (cat e.1.pack).installed = true → force = true ∧ e.1 ∈ vs)
    ∧ (∀ v ∈ vs, (cat v.pack).installed = true → force = true → v ∈ tiKeys ti)
    ∧ (∀ v ∈ vs, (cat v.pack).installed = true → force = false →
        v ∉ tiKeys ti) := by
  unfold close_packs at h
  have hcond : ∀ k ∈ tiKeys ti, Cond cat force vs k :=
    closeLoop_keys_cond cat force vs fuel _ _ [] ti h
      (by intro k hk; simp [tiKeys] at hk)
  refine ⟨?_, ?_, ?_⟩
  · intro e he hinst
    have hk : e.1 ∈ tiKeys ti := List.mem_map.mpr ⟨e, he, rfl⟩
    rcases hcond e.1 hk with hf | hfv
    · rw [hinst] at hf; simp at hf
    · exact hfv
  · intro v hv hinst hforce
    apply closeLoop_todo_key cat force vs fuel _ _ [] ti h v
      (List.mem_dedup.mpr hv)
    exact Or.inr ⟨hforce, hv⟩
  · intro v hv hinst hforce hk
    rcases hcond v hk with hf | ⟨hft, -⟩
    · rw [hinst] at hf; simp at hf
    · rw [hforce] at hft; simp at hft

/-- Witness for C3: in `c2Cat`, the installed package 2, explicitly
requested with force set, is reinstalled; with force clear the same
request is a no-op (the work set is empty). -/
theorem c3_witness :
    vR ∈ tiKeys [(vR, ([] : List Vers))] ∧ vR ∉ tiKeys ([] : TI) :=
  ⟨(c3_skip_installed c2Cat true [vR] 9 [(vR, [])] rfl).2.1 vR (by simp)
      rfl rfl,
   (c3_skip_installed c2Cat false [vR] 9 [] rfl).2.2 vR (by simp) rfl rfl⟩

/-- C2, counterexample. The spec's closure property fails as stated:
in `c2Cat`, requesting `[vP, vR]` (with `R` installed) yields the closure
`{vP ↦ {vQ}}` — the requested `vR` is missing from the result (so the
result is not a superset of the request), and `vP`'s requirement
contributes `vQ`, which is not itself in the result (so the result is not
closed under requirements as keys), because installed packages are skipped
by `close_packs`. -/
theorem c2_counterexample : ¬ C2_claim c2Cat false [vP, vR] 9 := by
  intro h
  obtain ⟨h1, -⟩ := h [(vP, [vQ])] rfl
  exact absurd (h1 vR (by simp)) (by decide)

/-- C2, amended. For every request `vs`, every member of `vs` whose
package is not installed (or with force set) is a key of the computed
closure; every recorded dependency whose package is not installed (or
force-and-requested) is a key of the closure; and every requirement of a
closure member that resolves to a version (the last requested version of
that package, else `Package.latest`) contributes that version to the
member's dependency set (`TIC`). -/
theorem c2_closure_amended (cat : Catalog) (force : Bool) (vs : List Vers)
    (fuel : Nat) (ti : TI)
    (h : close_packs cat force vs fuel = .ok ti) :
    (∀ v ∈ vs, ((cat v.pack).installed = false ∨ force = true) →
      v ∈ tiKeys ti)
    ∧ (∀ e ∈ ti, ∀ rv ∈ e.2,
        ((cat rv.pack).installed = false ∨ (force = true ∧ rv ∈ vs)) →
        rv ∈ tiKeys ti)
    ∧ TIC cat vs ti := by
  unfold close_packs at h
  refine ⟨?_, ?_, ?_⟩
  · intro v hv hcond
    apply closeLoop_todo_key cat force vs fuel _ _ [] ti h v
      (List.mem_dedup.mpr hv)
    rcases hcond with hf | hforce
    · exact Or.inl hf
    · exact Or.inr ⟨hforce, hv⟩
  · intro e he rv hrv hcond
    exact closeLoop_deps cat force vs fuel _ _ [] ti h
      (fun e' he' => absurd he' (List.not_mem_nil e')) e he rv hrv hcond
  · exact closeLoop_tic cat force vs fuel _ _ [] ti h (VC_init cat vs)
      (fun e' he' => absurd he' (List.not_mem_nil e'))

/-- Witness for the amended C2 on the scenario catalog: the requested
`vA` is a key of its closure. -/
theorem c2_witness : vA ∈ tiKeys exTI :=
  (c2_closure_amended exCat false [vA] 9 exTI rfl).1 vA (by simp)
    (Or.inl rfl)

/-! ## `install_packs` scheduling lemmas (C1) -/

theorem pick_mem_aux (rank : Nat → Nat) :
    ∀ (as : List (Vers × List Vers)) (a : Vers × List Vers),
      as.foldl (fun b x => if rank x.1.pack < rank b.1.pack then x else b) a
        ∈ a :: as := by
  intro as
  induction as with
  | nil => intro a; simp
  | cons y ys ih =>
    intro a
    rw [List.foldl_cons]
    rcases List.mem_cons.mp (ih (if rank y.1.pack < rank a.1.pack then y else a))
        with he | hm
    · rw [he]
      by_cases hc : rank y.1.pack < rank a.1.pack
      · rw [if_pos hc]
        exact List.mem_cons_of_mem _ (List.mem_cons_self _ _)
      · rw [if_neg hc]
        exact List.mem_cons_self _ _
    · exact List.mem_cons_of_mem _ (List.mem_cons_of_mem _ hm)

theorem pick_mem (rank : Nat → Nat) (l : List (Vers × List Vers))
    (c : Vers × List Vers) (h : pick rank l = some c) : c ∈ l := by
  cases l with
  | nil => simp [pick] at h
  | cons a as =>
    simp only [pick, Option.some.injEq] at h
    rw [← h]
    exact pick_mem_aux rank as a

theorem installLoop_sound (cat : Catalog) (rank : Nat → Nat) :
    ∀ fuel ti done order,
      (done ++ tiKeys ti).Nodup →
      installLoop cat rank fuel ti done = .ok order →
      (∃ rest, order = done ++ rest)
      ∧ ∀ e ∈ ti, e.1 ∈ order ∧ ∀ rv ∈ e.2,
          (cat rv.pack).installed = true ∨ IsBefore order rv e.1 := by
  intro fuel
  induction fuel with
  | zero =>
    intro ti done order hnd h
    cases ti with
    | nil =>
      simp only [installLoop, List.isEmpty_nil, if_true, Except.ok.injEq] at h
      subst h
      exact ⟨⟨[], by simp⟩, fun e he => absurd he (List.not_mem_nil e)⟩
    | cons a as => simp [installLoop] at h
  | succ fuel ih =>
    intro ti done order hnd h
    cases ti with
    | nil =>
      simp only [installLoop, Except.ok.injEq] at h
      subst h
      exact ⟨⟨[], by simp⟩, fun e he => absurd he (List.not_mem_nil e)⟩
    | cons a as =>
      simp only [installLoop] at h
      cases hp : pick rank ((a :: as).filter fun c => c.2.all (isReady cat done)) with
      | none => rw [hp] at h; simp at h
      | some c =>
        rw [hp] at h
        replace h : installLoop cat rank fuel
            ((a :: as).eraseP (fun x => decide (x.1 = c.1))) (done ++ [c.1])
            = .ok order := h
        have hcin := pick_mem rank _ c hp
        have hcti : c ∈ a :: as := (List.mem_filter.mp hcin).1
        have hcall : c.2.all (isReady cat done) = true := (List.mem_filter.mp hcin).2
        have hpc : (fun x => decide (x.1 = c.1)) c = true := by simp
        obtain ⟨a', l1, l2, hl1np, hpa', hteq, hterase⟩ :=
          @List.exists_of_eraseP _ (fun x => decide (x.1 = c.1)) (a :: as) c
            hcti hpc
        have hnd' := hnd
        rw [List.nodup_append] at hnd'
        have hkeysnd : (tiKeys (a :: as)).Nodup := hnd'.2.1
        have ha'c : a' = c := by
          apply List.inj_on_of_nodup_map hkeysnd
            (l := a :: as) (f := Prod.fst)
          · rw [hteq]; exact List.mem_append.mpr (Or.inr (by simp))
          · exact hcti
          · simpa using hpa'
        subst ha'c
        rw [hterase] at h
        -- Nodup for the recursive call
        have hkeq : tiKeys (a :: as) = tiKeys l1 ++ a'.1 :: tiKeys l2 := by
          rw [hteq]
          unfold tiKeys
          rw [List.map_append]
          rfl
        have hperm :
            (done ++ tiKeys (a :: as)).Perm
              ((done ++ [a'.1]) ++ (tiKeys l1 ++ tiKeys l2)) := by
          rw [hkeq, List.append_assoc]
          refine List.Perm.append_left done ?_
          exact (List.perm_middle).trans (by rfl)
        have hnd2 : ((done ++ [a'.1]) ++ tiKeys (l1 ++ l2)).Nodup := by
          have := hnd.perm hperm
          unfold tiKeys
          rw [List.map_append]
          exact this
        obtain ⟨⟨rest, horder⟩, hmem⟩ := ih (l1 ++ l2) (done ++ [a'.1]) order hnd2 h
        have horder' : order = done ++ a'.1 :: rest := by
          rw [horder, List.append_assoc]
          rfl
        constructor
        · exact ⟨a'.1 :: rest, horder'⟩
        · intro e he
          rw [hteq] at he
          rcases List.mem_append.mp he with h1 | h2
          · exact hmem e (List.mem_append.mpr (Or.inl h1))
          · rcases List.mem_cons.mp h2 with rfl | h3
            · constructor
              · rw [horder']
                exact List.mem_append.mpr (Or.inr (by simp))
              · intro rv hrv
                have hready : isReady cat done rv = true :=
                  List.all_eq_true.mp hcall rv hrv
                unfold isReady at hready
                rcases Bool.or_eq_true _ _ |>.mp hready with hd | hi
                · exact Or.inr ⟨done, rest, horder', of_decide_eq_true hd⟩
                · exact Or.inl hi
            · exact hmem e (List.mem_append.mpr (Or.inr h3))

/-- C1. The scheduling loop of `install_packs` installs a dependency
before every dependent: whenever it completes with an order, every closure
member appears in the order, and every member of its dependency set is
either owned by an already-installed package or occurs strictly earlier in
the order.  In particular, on the scenario catalog (`A` requires `B`
requires `C`, none installed), the closure of a request for `A` is
installed in the order `[C, B, A]`, driven by the ranks `get_rank`
computes (`C` 0, `B` 1, `A` 2, matching `exRank`). -/
theorem c1_install_order :
    (∀ (cat : Catalog) (rank : Nat → Nat) (fuel : Nat) (ti : TI)
        (order : List Vers),
      (tiKeys ti).Nodup →
      install_order cat rank ti fuel = .ok order →
      ∀ e ∈ ti, e.1 ∈ order ∧ ∀ rv ∈ e.2,
        (cat rv.pack).installed = true ∨ IsBefore order rv e.1)
    ∧ close_packs exCat false [vA] 9 = .ok exTI
    ∧ install_order exCat exRank exTI 9 = .ok [vC, vB, vA]
    ∧ (get_rank exCat 9 memo0 2).map Prod.fst = some (exRank 2)
    ∧ (get_rank exCat 9 memo0 1).map Prod.fst = some (exRank 1)
    ∧ (get_rank exCat 9 memo0 0).map Prod.fst = some (exRank 0) := by
  refine ⟨?_, rfl, rfl, rfl, rfl, rfl⟩
  intro cat rank fuel ti order hnd h
  exact (installLoop_sound cat rank fuel ti [] order (by simpa using hnd) h).2

/-- Witness for C1 on the scenario: `vA` appears in the computed order
and its dependency `vB` is installed strictly before it. -/
theorem c1_witness :
    vA ∈ [vC, vB, vA]
    ∧ ∀ rv ∈ [vB], (exCat rv.pack).installed = true
        ∨ IsBefore [vC, vB, vA] rv vA :=
  c1_install_order.1 exCat exRank 9 exTI [vC, vB, vA] (by decide) rfl
    (vA, [vB]) (by simp [exTI])

/-! ## `get_rank` lemmas (C4) -/

theorem foldl_rankFAcc_none (f : Nat → Option Nat) :
    ∀ qs : List Nat, qs.foldl (rankFAcc f) none = none := by
  intro qs
  induction qs with
  | nil => rfl
  | cons q qs ih => rw [List.foldl_cons]; exact ih

theorem foldl_rankAcc_none (f : Memo → Nat → Option (Nat × Memo)) :
    ∀ qs : List Nat, qs.foldl (rankAcc f) none = none := by
  intro qs
  induction qs with
  | nil => rfl
  | cons q qs ih => rw [List.foldl_cons]; exact ih

theorem rankF_mono (cat : Catalog) :
    ∀ f1 f2 p r, f1 ≤ f2 → rankF cat f1 p = some r → rankF cat f2 p = some r := by
  intro f1
  induction f1 with
  | zero => intro f2 p r _ h; simp [rankF] at h
  | succ f1 ih =>
    intro f2 p r hle h
    cases f2 with
    | zero => omega
    | succ f2 =>
      have hle' : f1 ≤ f2 := by omega
      have hfold : ∀ (qs : List Nat) (acc rs : List Nat),
          qs.foldl (rankFAcc (fun q => rankF cat f1 q)) (some acc) = some rs →
          qs.foldl (rankFAcc (fun q => rankF cat f2 q)) (some acc) = some rs := by
        intro qs
        induction qs with
        | nil => intro acc rs hh; exact hh
        | cons q qs ihq =>
          intro acc rs hh
          rw [List.foldl_cons] at hh ⊢
          cases hq : rankF cat f1 q with
          | none =>
            rw [show rankFAcc (fun q => rankF cat f1 q) (some acc) q = none
              from by simp [rankFAcc, hq]] at hh
            rw [foldl_rankFAcc_none] at hh
            simp at hh
          | some r1 =>
            have hq2 := ih f2 q r1 hle' hq
            rw [show rankFAcc (fun q => rankF cat f1 q) (some acc) q
                = some (acc ++ [r1]) from by simp [rankFAcc, hq]] at hh
            rw [show rankFAcc (fun q => rankF cat f2 q) (some acc) q
                = some (acc ++ [r1]) from by simp [rankFAcc, hq2]]
            exact ihq (acc ++ [r1]) rs hh
      simp only [rankF] at h ⊢
      cases hd : pdeps cat p with
      | nil => rw [hd] at h; exact h
      | cons d ds =>
        rw [hd] at h
        replace h : (match (d :: ds).foldl (rankFAcc fun q => rankF cat f1 q)
              (some []) with
            | none => none
            | some rs => some (pymax rs + 1)) = some r := h
        show (match (d :: ds).foldl (rankFAcc fun q => rankF cat f2 q)
            (some []) with
          | none => none
          | some rs => some (pymax rs + 1)) = some r
        cases hf : (d :: ds).foldl (rankFAcc (fun q => rankF cat f1 q)) (some []) with
        | none => rw [hf] at h; simp at h
        | some rs =>
          rw [hf] at h
          rw [hfold (d :: ds) [] rs hf]
          exact h

theorem HasRank_unique (cat : Catalog) (p r r' : Nat)
    (h : HasRank cat p r) (h' : HasRank cat p r') : r = r' := by
  obtain ⟨f, hf⟩ := h
  obtain ⟨f', hf'⟩ := h'
  have h1 := rankF_mono cat f (max f f') p r (le_max_left _ _) hf
  have h2 := rankF_mono cat f' (max f f') p r' (le_max_right _ _) hf'
  rw [h1] at h2
  exact Option.some.inj h2

theorem hasRank_common (cat : Catalog) :
    ∀ qs rs : List Nat, List.Forall₂ (fun q rq => HasRank cat q rq) qs rs →
      ∃ F, List.Forall₂ (fun q rq => rankF cat F q = some rq) qs rs := by
  intro qs rs h
  induction h with
  | nil => exact ⟨0, List.Forall₂.nil⟩
  | @cons q rq qs rs hqr htail ih =>
    obtain ⟨f1, hf1⟩ := hqr
    obtain ⟨F, hF⟩ := ih
    refine ⟨max f1 F,
      List.Forall₂.cons (rankF_mono cat f1 _ q rq (le_max_left _ _) hf1) ?_⟩
    exact hF.imp (fun q' rq' hq' => rankF_mono cat F _ q' rq' (le_max_right _ _) hq')

theorem foldl_of_forall2 (cat : Catalog) (F : Nat) :
    ∀ (qs rs acc : List Nat),
      List.Forall₂ (fun q rq => rankF cat F q = some rq) qs rs →
      qs.foldl (rankFAcc (fun q => rankF cat F q)) (some acc) = some (acc ++ rs) := by
  intro qs rs acc h
  induction h generalizing acc with
  | nil => simp
  | @cons q rq qs rs hqr htail ih =>
    rw [List.foldl_cons]
    rw [show rankFAcc (fun q => rankF cat F q) (some acc) q = some (acc ++ [rq])
      from by simp [rankFAcc, hqr]]
    rw [ih (acc ++ [rq]), List.append_assoc]
    rfl

theorem rankF_succ_ne (cat : Catalog) (fuel p : Nat) (hne : pdeps cat p ≠ []) :
    rankF cat (fuel + 1) p =
      match (pdeps cat p).foldl (rankFAcc (fun q => rankF cat fuel q))
          (some []) with
      | none => none
      | some rs => some (pymax rs + 1) := by
  simp only [rankF]
  cases hd : pdeps cat p with
  | nil => exact absurd hd hne
  | cons d ds => rfl

theorem HasRank_step (cat : Catalog) (p : Nat) (qs rs : List Nat)
    (hd : pdeps cat p = qs) (hne : qs ≠ [])
    (h : List.Forall₂ (fun q rq => HasRank cat q rq) qs rs) :
    HasRank cat p (pymax rs + 1) := by
  obtain ⟨F, hF⟩ := hasRank_common cat qs rs h
  refine ⟨F + 1, ?_⟩
  rw [rankF_succ_ne cat F p (by rw [hd]; exact hne), hd,
    foldl_of_forall2 cat F qs rs [] hF]
  simp

theorem foldl_max_init_le : ∀ (l : List Nat) (a : Nat), a ≤ l.foldl Nat.max a := by
  intro l
  induction l with
  | nil => intro a; exact le_refl a
  | cons y ys ih =>
    intro a
    rw [List.foldl_cons]
    exact le_trans (Nat.le_max_left a y) (ih (Nat.max a y))

theorem le_pymax (l : List Nat) (x : Nat) (hx : x ∈ l) : x ≤ pymax l := by
  unfold pymax
  suffices h : ∀ a, x ≤ l.foldl Nat.max a from h 0
  induction l with
  | nil => simp at hx
  | cons y ys ih =>
    intro a
    rw [List.foldl_cons]
    rcases List.mem_cons.mp hx with rfl | hmem
    · exact le_trans (Nat.le_max_right a x) (foldl_max_init_le ys (Nat.max a x))
    · exact ih hmem (Nat.max a y)

theorem forall2_and_right {α β : Type} {R : α → β → Prop} {T : β → Prop} :
    ∀ {l1 : List α} {l2 : List β}, List.Forall₂ R l1 l2 → (∀ b ∈ l2, T b) →
      List.Forall₂ (fun a b => R a b ∧ T b) l1 l2 := by
  intro l1 l2 h hT
  induction h with
  | nil => exact .nil
  | @cons a b l1 l2 hab htail ih =>
    exact .cons ⟨hab, hT b (by simp)⟩ (ih (fun b' hb' => hT b' (by simp [hb'])))

theorem get_rank_fold (cat : Catalog) (fuel : Nat)
    (hPg : ∀ memo p r memo1, MemoInv cat memo →
      get_rank cat fuel memo p = some (r, memo1) →
      MemoInv cat memo1 ∧ memo1 p = some r ∧ HasRank cat p r
      ∧ ∀ q s, memo q = some s → memo1 q = some s) :
    ∀ (qs : List Nat) (rs0 : List Nat) (memo : Memo) (rs : List Nat)
        (memo1 : Memo),
      MemoInv cat memo →
      qs.foldl (rankAcc (fun m q => get_rank cat fuel m q)) (some (rs0, memo))
        = some (rs, memo1) →
      MemoInv cat memo1
      ∧ (∀ q s, memo q = some s → memo1 q = some s)
      ∧ ∃ rs', rs = rs0 ++ rs'
          ∧ List.Forall₂ (fun q rq => HasRank cat q rq ∧ memo1 q = some rq)
              qs rs' := by
  intro qs
  induction qs with
  | nil =>
    intro rs0 memo rs memo1 hinv h
    simp only [List.foldl_nil, Option.some.injEq, Prod.mk.injEq] at h
    obtain ⟨rfl, rfl⟩ := h
    exact ⟨hinv, fun q s hq => hq, [], by simp, List.Forall₂.nil⟩
  | cons q qs ihq =>
    intro rs0 memo rs memo1 hinv h
    rw [List.foldl_cons] at h
    cases hg : get_rank cat fuel memo q with
    | none =>
      rw [show rankAcc (fun m q => get_rank cat fuel m q) (some (rs0, memo)) q
          = none from by simp [rankAcc, hg]] at h
      rw [foldl_rankAcc_none] at h
      simp at h
    | some pr =>
      obtain ⟨rq, memoA⟩ := pr
      obtain ⟨hinvA, hmemA, hhr, hmono⟩ := hPg memo q rq memoA hinv hg
      rw [show rankAcc (fun m q => get_rank cat fuel m q) (some (rs0, memo)) q
          = some (rs0 ++ [rq], memoA) from by simp [rankAcc, hg]] at h
      obtain ⟨hinv1, hmono1, rs', hrs, hfa⟩ :=
        ihq (rs0 ++ [rq]) memoA rs memo1 hinvA h
      refine ⟨hinv1, fun q' s hq' => hmono1 q' s (hmono q' s hq'),
        rq :: rs', ?_, ?_⟩
      · rw [hrs, List.append_assoc]; rfl
      · exact List.Forall₂.cons ⟨hhr, hmono1 q rq hmemA⟩ hfa

theorem get_rank_sound (cat : Catalog) :
    ∀ fuel memo p r memo1,
      MemoInv cat memo →
      get_rank cat fuel memo p = some (r, memo1) →
      MemoInv cat memo1 ∧ memo1 p = some r ∧ HasRank cat p r
      ∧ (∀ q s, memo q = some s → memo1 q = some s)
      ∧ (memo p = none → pdeps cat p = [] → r = 0)
      ∧ (memo p = none → pdeps cat p ≠ [] →
          ∃ rs, List.Forall₂ (fun q rq => memo1 q = some rq ∧ HasRank cat q rq)
              (pdeps cat p) rs
            ∧ r = pymax rs + 1) := by
  intro fuel
  induction fuel with
  | zero => intro memo p r memo1 _ h; simp [get_rank] at h
  | succ fuel ih =>
    intro memo p r memo1 hinv h
    have ihPg : ∀ memo p r memo1, MemoInv cat memo →
        get_rank cat fuel memo p = some (r, memo1) →
        MemoInv cat memo1 ∧ memo1 p = some r ∧ HasRank cat p r
        ∧ ∀ q s, memo q = some s → memo1 q = some s := by
      intro m pp rr m1 hi hh
      obtain ⟨a, b, c, d, -, -⟩ := ih m pp rr m1 hi hh
      exact ⟨a, b, c, d⟩
    simp only [get_rank] at h
    cases hm : memo p with
    | some r0 =>
      rw [hm] at h
      simp only [Option.some.injEq, Prod.mk.injEq] at h
      obtain ⟨rfl, rfl⟩ := h
      refine ⟨hinv, hm, hinv p r0 hm, fun q s hq => hq, ?_, ?_⟩
      · intro hmn; exact Option.noConfusion hmn
      · intro hmn; exact Option.noConfusion hmn
    | none =>
      rw [hm] at h
      cases hd : pdeps cat p with
      | nil =>
        rw [hd] at h
        simp only [Option.some.injEq, Prod.mk.injEq] at h
        obtain ⟨rfl, rfl⟩ := h
        have hR0 : HasRank cat p 0 := ⟨1, by simp only [rankF]; rw [hd]⟩
        refine ⟨?_, ?_, hR0, ?_, fun _ _ => rfl, ?_⟩
        · intro q s hq
          unfold mupd at hq
          by_cases hqp : q = p
          · rw [if_pos hqp] at hq
            cases hq
            exact hqp ▸ hR0
          · rw [if_neg hqp] at hq
            exact hinv q s hq
        · unfold mupd; rw [if_pos rfl]
        · intro q s hq
          unfold mupd
          by_cases hqp : q = p
          · subst hqp; rw [hm] at hq; cases hq
          · rw [if_neg hqp]; exact hq
        · intro _ hne; exact absurd rfl hne
      | cons d ds =>
        rw [hd] at h
        cases hf : (d :: ds).foldl (rankAcc fun m q => get_rank cat fuel m q)
            (some ([], memo)) with
        | none => rw [hf] at h; simp at h
        | some pair =>
          rw [hf] at h
          obtain ⟨rs, memoA⟩ := pair
          simp only [Option.some.injEq, Prod.mk.injEq] at h
          obtain ⟨rfl, rfl⟩ := h
          obtain ⟨hinvA, hmonoA, rsx, hrs, hfa⟩ :=
            get_rank_fold cat fuel ihPg (d :: ds) [] memo rs memoA hinv hf
          rw [List.nil_append] at hrs
          subst hrs
          have hfaH : List.Forall₂ (fun q rq => HasRank cat q rq) (d :: ds) rs :=
            hfa.imp (fun a b hab => hab.1)
          have hhrp : HasRank cat p (pymax rs + 1) :=
            HasRank_step cat p (d :: ds) rs hd (by simp) hfaH
          have hm1p : mupd memoA p (pymax rs + 1) p = some (pymax rs + 1) := by
            unfold mupd; rw [if_pos rfl]
          refine ⟨?_, hm1p, hhrp, ?_, ?_, ?_⟩
          · intro q s hq
            unfold mupd at hq
            by_cases hqp : q = p
            · rw [if_pos hqp] at hq
              cases hq
              exact hqp ▸ hhrp
            · rw [if_neg hqp] at hq
              exact hinvA q s hq
          · intro q s hq
            unfold mupd
            by_cases hqp : q = p
            · subst hqp; rw [hm] at hq; cases hq
            · rw [if_neg hqp]; exact hmonoA q s hq
          · intro _ habs; exact List.noConfusion habs
          · intro _ _
            refine ⟨rs, ?_, rfl⟩
            refine hfa.imp ?_
            intro q rq hab
            refine ⟨?_, hab.1⟩
            unfold mupd
            by_cases hqp : q = p
            · subst hqp
              have heq : rq = pymax rs + 1 := HasRank_unique cat q rq _ hab.1 hhrp
              rw [if_pos rfl, heq]
            · rw [if_neg hqp]
              exact hab.2

/-- C4. `get_rank` satisfies the rank recurrence: from a memo table
whose entries are canonical (in particular the initial, empty table), a
freshly computed rank is 0 when the package has no requirements and no
uses, and otherwise `1 + max` of its dependencies' ranks — so it is
strictly greater than the rank of every package in `reqs ∪ uses`; and
every memoized rank, once recorded, survives any further `get_rank` call
unchanged.  (On a dependency cycle `get_rank` never returns, which the
fuelled embedding reports as `none`, so the success hypothesis embodies
acyclicity.) -/
theorem c4_get_rank (cat : Catalog) (fuel : Nat) (memo : Memo) (p r : Nat)
    (memo1 : Memo) (hinv : MemoInv cat memo)
    (h : get_rank cat fuel memo p = some (r, memo1)) :
    (memo p = none → pdeps cat p = [] → r = 0)
    ∧ (memo p = none → pdeps cat p ≠ [] →
        ∃ rs, List.Forall₂ (fun q rq => memo1 q = some rq ∧ rq < r)
            (pdeps cat p) rs
          ∧ r = pymax rs + 1)
    ∧ (∀ q s, memo q = some s → memo1 q = some s) := by
  obtain ⟨hinv1, hmp, hhr, hmono, hz, hrec⟩ :=
    get_rank_sound cat fuel memo p r memo1 hinv h
  refine ⟨hz, ?_, hmono⟩
  intro hmn hne
  obtain ⟨rs, hfa, hr⟩ := hrec hmn hne
  refine ⟨rs, ?_, hr⟩
  have hlt : ∀ rq ∈ rs, rq < r := by
    intro rq hrq
    rw [hr]
    exact Nat.lt_succ_of_le (le_pymax rs rq hrq)
  exact (forall2_and_right hfa hlt).imp (fun a b hab => ⟨hab.1.1, hab.2⟩)

/-- Witness for C4 on `exCat`: from the empty memo table, ranking package
1 yields 1, equal to `1 + max` of the rank of its one requirement
(package 0, rank 0, recorded in the resulting memo table). -/
theorem c4_witness :
    ∃ rs, List.Forall₂ (fun q rq => c4memoA q = some rq ∧ rq < 1)
        (pdeps exCat 1) rs
      ∧ 1 = pymax rs + 1 :=
  (c4_get_rank exCat 5 memo0 1 1 c4memoA
      (fun q s hq => Option.noConfusion hq) rfl).2.1 rfl (by decide)

/-! ## `unpack` lemmas (C8) -/

theorem upk_lookup (ext cmd : String) (h : (ext, cmd) ∈ UNPACKERS) :
    (UNPACKERS.find? (fun u => u.1 = ext)).map Prod.snd = some cmd := by
  fin_cases h <;> rfl

theorem unpack_no_dot (file : String) (h : firstDot file = none) :
    unpack file = .error ("don't know how to unpack " ++ file) := by
  unfold unpack
  rw [h]

theorem unpack_dot (file : String) (p : Nat) (h : firstDot file = some p) :
    unpack file =
      match (UNPACKERS.find?
          (fun u => u.1 = (file.toList.drop (p + 1)).asString)).map Prod.snd with
      | none => .error ("don't know how to unpack " ++ file)
      | some cmd => .ok (cmd, (file.toList.take p).asString) := by
  unfold unpack
  rw [h]

/-- C8, counterexample. Dispatch is *not* on the trailing extension:
`"a-1.0.tar.gz"` ends in `tar.gz`, which is in the `UNPACKERS` table, yet
`unpack` is fatal on it, because `file.index(".")` finds the *first* dot
and looks up `"0.tar.gz"`. -/
theorem c8_counterexample : ¬ C8_claim := by
  intro h
  obtain ⟨h1, -⟩ := h "a-1.0.tar.gz"
  obtain ⟨d, hd⟩ := h1 "tar.gz" "tar xvf %s" (by simp [UNPACKERS]) (by decide)
  rw [show unpack "a-1.0.tar.gz"
      = .error "don't know how to unpack a-1.0.tar.gz" from rfl] at hd
  simp at hd

/-- C8, amended. `unpack` dispatches on the substring after the
*first* dot of the file name, matched against the fixed table
`{tar.gz, tar.bz2, zip, rar}`: a name whose after-first-dot suffix is in
the table is handed to the corresponding unpack command (returning the
prefix before the first dot as the unpacked directory); a name with no
dot, or whose after-first-dot suffix is not in the table — including
names such as `a-1.0.tar.gz` that *end* in a table extension but contain
an earlier dot — is a fatal error. -/
theorem c8_unpack_first_dot (file : String) :
    (firstDot file = none →
      unpack file = .error ("don't know how to unpack " ++ file))
    ∧ (∀ p ext cmd, firstDot file = some p →
        (file.toList.drop (p + 1)).asString = ext →
        (ext, cmd) ∈ UNPACKERS →
        unpack file = .ok (cmd, (file.toList.take p).asString))
    ∧ (∀ p, firstDot file = some p →
        (∀ cmd, ((file.toList.drop (p + 1)).asString, cmd) ∉ UNPACKERS) →
        unpack file = .error ("don't know how to unpack " ++ file)) := by
  refine ⟨fun h => unpack_no_dot file h,
    fun p ext cmd hp hext hmem => ?_, fun p hp hnot => ?_⟩
  · rw [unpack_dot file p hp]
    subst hext
    rw [upk_lookup _ cmd hmem]
  · rw [unpack_dot file p hp]
    cases hf : UNPACKERS.find?
        (fun u => u.1 = (file.toList.drop (p + 1)).asString) with
    | none => rfl
    | some u =>
      exfalso
      have hu := List.mem_of_find?_eq_some hf
      have hup : u.1 = (file.toList.drop (p + 1)).asString := by
        simpa using List.find?_some hf
      refine hnot u.2 ?_
      rw [← hup]
      simpa using hu

/-- Witness for the amended C8: `"foo.tar.gz"` has its first dot at index
3, suffix `"tar.gz"`, and is unpacked by `tar xvf %s` into directory
`"foo"`. -/
theorem c8_witness : unpack "foo.tar.gz" = .ok ("tar xvf %s", "foo") :=
  (c8_unpack_first_dot "foo.tar.gz").2.1 3 "tar.gz" "tar xvf %s"
    (by decide) (by decide) (by decide)

end SIS
